import Mathlib

/-
  Verification development for the EasyFlash wear-leveling environment
  variable store (flash/src/flash_env_wl.c).

  The RAM cache detail part is modelled as a list of characters holding
  exactly the live region (the bytes between the detail part start and the
  detail end address).  C strings (keys and values) are modelled as lists
  of characters that do not contain the NUL character; the terminating NUL
  is implicit.  The compile-time CRC feature is not modelled, so the
  parameter part is one word (4 bytes).  Machine integers are modelled as
  Nat, with an explicit mod where the C code truncates (the uint16_t
  record length in write_env, and the uint32_t subtraction in load).
-/

namespace EasyFlash

/-- Error codes of the flash layer, as used by flash_env_wl.c. -/
inductive FlashErrCode where
  | FLASH_NO_ERR
  | FLASH_ERASE_ERR
  | FLASH_WRITE_ERR
  | FLASH_ENV_NAME_ERR
  | FLASH_ENV_NAME_EXIST
  | FLASH_ENV_FULL
deriving DecidableEq

open FlashErrCode

/-- The NUL character terminating C strings. -/
def NUL : Char := Char.ofNat 0

/-- Parameter part byte size: one word (detail end address); CRC disabled. -/
def ENV_PARAM_PART_BYTE_SIZE : Nat := 4

/-- The sentinel stored in the system section meaning: no data section. -/
def SENTINEL : Nat := 0xFFFFFFFF

/-- Round n up to the next multiple of 4, as the C code does with
    `if (n % 4 != 0) n = (n / 4 + 1) * 4`. -/
def pad4 (n : Nat) : Nat := if n % 4 = 0 then n else (n / 4 + 1) * 4

/-- strlen: the number of characters before the first NUL. -/
def cstrlen : List Char → Nat
  | [] => 0
  | c :: cs => if c = NUL then 0 else cstrlen cs + 1

/-- The C string starting at a pointer: the characters before the first NUL. -/
def cstr : List Char → List Char
  | [] => []
  | c :: cs => if c = NUL then [] else c :: cstr cs

/-- uint32 subtraction, as performed on addresses by the C code. -/
def u32sub (a b : Nat) : Nat := (a + 2 ^ 32 - b % 2 ^ 32) % 2 ^ 32

/-- strstr: index of the first occurrence of needle inside the C string hay
    (hay is already cut at its NUL).  Returns some index or none. -/
def strstrIdx (hay needle : List Char) : Option Nat :=
  if needle.isPrefixOf hay then some 0
  else
    match hay with
    | [] => none
    | _ :: t => (strstrIdx t needle).map (· + 1)

/-- The process-wide state of the environment store: the configured region,
    the current data section address, and the live detail part content.
    The detail end address (cache word 0) is curUsing + 4 + detail.length. -/
structure EnvSt where
  startAddr : Nat
  totalSize : Nat
  eraseMin : Nat
  curUsing : Nat
  detail : List Char
deriving DecidableEq

/-- get_env_detail_addr: data section address plus the parameter part. -/
def get_env_detail_addr (st : EnvSt) : Nat :=
  st.curUsing + ENV_PARAM_PART_BYTE_SIZE

/-- get_env_detail_end_addr (cache word 0), kept coherent with the live
    detail content: detail part start plus the number of live bytes. -/
def get_env_detail_end_addr (st : EnvSt) : Nat :=
  st.curUsing + ENV_PARAM_PART_BYTE_SIZE + st.detail.length

/-- get_env_detail_size: end address minus detail part start address. -/
def get_env_detail_size (st : EnvSt) : Nat := st.detail.length

/-- flash_get_env_used_size: detail end address minus the store start. -/
def flash_get_env_used_size (st : EnvSt) : Nat :=
  get_env_detail_end_addr st - st.startAddr

/-- One candidate test of the find_env loop at offset o:
    env_bak = strstr(env, key); match only if env_bak is non-null and
    env_bak[strlen(key)] == the equal sign. -/
def matchAt (key d : List Char) (o : Nat) : Bool :=
  match strstrIdx (cstr (d.drop o)) key with
  | some i => (d.drop o)[i + key.length]? = some '='
  | none => false

/-- The scan loop of find_env: from offset o, while env < env_end; on a
    mismatch advance by strlen(env) + 1. -/
def find_from (key d : List Char) (o : Nat) : Option Nat :=
  if h : o < d.length then
    if matchAt key d o then some o
    else find_from key d (o + cstrlen (d.drop o) + 1)
  else none
termination_by d.length - o
decreasing_by omega

/-- The same scan with an explicit iteration bound; the offset grows by at
    least one per iteration, so d.length + 1 iterations always reach the
    region end.  This form evaluates by kernel reduction. -/
def find_from_fuel (key d : List Char) : Nat → Nat → Option Nat
  | 0, _ => none
  | fuel + 1, o =>
    if o < d.length then
      (if matchAt key d o then some o
       else find_from_fuel key d fuel (o + cstrlen (d.drop o) + 1))
    else none

/-- find_env: reject the empty key, then scan the detail part from its
    start to the detail end address. -/
def find_env (key : List Char) (d : List Char) : Option Nat :=
  if key = [] then none else find_from_fuel key d (d.length + 1) 0

/-- The record length computed by write_env: strlen(key)+strlen(value)+2,
    padded to a multiple of 4, in uint16_t arithmetic. -/
def padded_len (k v : List Char) : Nat :=
  let r := (k.length + v.length + 2) % 2 ^ 16
  if r % 4 = 0 then r else ((r / 4 + 1) * 4) % 2 ^ 16

/-- The p bytes written by write_env: the zeroed buffer receives the key,
    the equal sign and the value; the rest stays NUL. -/
def env_str_bytes (k v : List Char) (p : Nat) : List Char :=
  (k ++ '=' :: v ++ List.replicate p NUL).take p

/-- write_env: check the capacity, then append the formatted record at the
    detail end and advance the end address by the padded length. -/
def write_env (k v : List Char) (st : EnvSt) : FlashErrCode × EnvSt :=
  if padded_len k v + get_env_detail_size st ≥ st.totalSize then
    (FLASH_ENV_FULL, st)
  else
    (FLASH_NO_ERR,
      { st with detail := st.detail ++ env_str_bytes k v (padded_len k v) })

/-- create_env: reject an empty key or a key containing the equal sign,
    reject an existing key, else write_env. -/
def create_env (k v : List Char) (st : EnvSt) : FlashErrCode × EnvSt :=
  if k = [] then (FLASH_ENV_NAME_ERR, st)
  else if k.contains '=' then (FLASH_ENV_NAME_ERR, st)
  else
    match find_env k st.detail with
    | some _ => (FLASH_ENV_NAME_EXIST, st)
    | none => write_env k v st

/-- The padded length of the record being deleted: strlen + 1 for the NUL,
    rounded up to a multiple of 4. -/
def del_padded_len (d : List Char) (o : Nat) : Nat :=
  pad4 (cstrlen (d.drop o) + 1)

/-- flash_del_env: find the record, compute its padded length, move the
    remaining bytes forward and decrement the end address.
    The C memcpy copies detail_size - 4 - o bytes from o + del_len to o;
    since del_len is at least 4 (= the parameter part size here), every
    byte position below the new end address receives the byte del_len
    further on, and positions at or beyond the new end address are dead.
    The live result is therefore take o ++ drop (o + del_len). -/
def flash_del_env (k : List Char) (st : EnvSt) : FlashErrCode × EnvSt :=
  if k = [] then (FLASH_ENV_NAME_ERR, st)
  else if k.contains '=' then (FLASH_ENV_NAME_ERR, st)
  else
    match find_env k st.detail with
    | none => (FLASH_ENV_NAME_ERR, st)
    | some o =>
        (FLASH_NO_ERR,
          { st with detail := st.detail.take o ++
              st.detail.drop (o + del_padded_len st.detail o) })

/-- flash_set_env: an empty value deletes the key; otherwise delete the
    existing record (if any) and recreate the variable. -/
def flash_set_env (k v : List Char) (st : EnvSt) : FlashErrCode × EnvSt :=
  if v = [] then flash_del_env k st
  else
    let r1 : FlashErrCode × EnvSt :=
      match find_env k st.detail with
      | some _ => flash_del_env k st
      | none => (FLASH_NO_ERR, st)
    if r1.1 = FLASH_NO_ERR then create_env k v r1.2 else r1

/-- flash_get_env: find the record, take the substring after the first
    equal sign up to the NUL terminator; none when absent. -/
def flash_get_env (k : List Char) (st : EnvSt) : Option (List Char) :=
  match find_env k st.detail with
  | none => none
  | some o =>
      let s := cstr (st.detail.drop o)
      match strstrIdx s ['='] with
      | none => none
      | some i => some (s.drop (i + 1))

/-
  The wear-leveling save algorithm (flash_save_env).  The loop works on
  the current data section address and the cached detail end address; the
  detail size is snapshotted on entry.  Erase and write faults are
  injected through oracles keyed by the slot address.
-/

/-- The inputs of flash_save_env: the configured region, the snapshotted
    detail size, and the fault oracles of the storage device. -/
structure SaveParams where
  start : Nat
  total : Nat
  eraseMin : Nat
  dsize : Nat
  eraseFails : Nat → Bool
  writeFails : Nat → Bool
deriving Inhabited

/-- move_offset_addr: (env_detail_size / flash_erase_min_size + 1) *
    flash_erase_min_size, the relocation stride on an erase/write fault. -/
def move_offset (p : SaveParams) : Nat :=
  (p.dsize / p.eraseMin + 1) * p.eraseMin

/-- The byte length passed to flash_erase and flash_write for the data
    section: ENV_PARAM_PART_BYTE_SIZE + env_detail_size. -/
def data_erase_len (p : SaveParams) : Nat :=
  ENV_PARAM_PART_BYTE_SIZE + p.dsize

/-- Loop exit of flash_save_env: the result variable, the current data
    section address, the cached end address, and the erase requests
    (address, length) issued so far; fuelOut when the fuel ran out. -/
inductive SaveOut where
  | done (r : FlashErrCode) (cur endA : Nat) (eraseCalls : List (Nat × Nat))
  | fuelOut
deriving DecidableEq

/-- The wear-leveling while loop of flash_save_env: while the slot fits,
    erase then write; on either fault advance the slot address and the
    cached end address by move_offset and retry. -/
def saveLoop (p : SaveParams) : Nat → FlashErrCode → Nat → Nat →
    List (Nat × Nat) → SaveOut
  | 0, _, _, _, _ => SaveOut.fuelOut
  | fuel + 1, r, cur, endA, calls =>
    if cur + p.dsize < p.start + p.total then
      let calls := calls ++ [(cur, data_erase_len p)]
      if p.eraseFails cur then
        saveLoop p fuel FlashErrCode.FLASH_ERASE_ERR (cur + move_offset p)
          (endA + move_offset p) calls
      else if p.writeFails cur then
        saveLoop p fuel FlashErrCode.FLASH_WRITE_ERR (cur + move_offset p)
          (endA + move_offset p) calls
      else SaveOut.done FlashErrCode.FLASH_NO_ERR cur endA calls
    else SaveOut.done r cur endA calls

/-- save_cur_using_data_addr: erase the system section (address
    env_start_addr, length 4), then write the given address there.
    Returns the result code, the erase request issued, and the value the
    write call stores (none when the erase failed, so no write happens). -/
def save_cur_using_data_addr (start cur_data_addr : Nat)
    (sysEraseFails sysWriteFails : Bool) :
    FlashErrCode × (Nat × Nat) × Option Nat :=
  if sysEraseFails then (FlashErrCode.FLASH_ERASE_ERR, (start, 4), none)
  else if sysWriteFails then
    (FlashErrCode.FLASH_WRITE_ERR, (start, 4), some cur_data_addr)
  else (FlashErrCode.FLASH_NO_ERR, (start, 4), some cur_data_addr)

/-- The outcome of flash_save_env: result code, final slot address, final
    cached end address, and the value passed to save_cur_using_data_addr
    for the system section (none when the pointer is left untouched). -/
def flash_save_env_wl (p : SaveParams) (fuel cur0 endA0 : Nat) :
    Option (FlashErrCode × Nat × Nat × Option Nat) :=
  match saveLoop p fuel FlashErrCode.FLASH_NO_ERR cur0 endA0 [] with
  | SaveOut.fuelOut => none
  | SaveOut.done r cur endA _ =>
      if cur + p.dsize < p.start + p.total then
        some (r, cur, endA, if cur ≠ cur0 then some cur else none)
      else
        some (FlashErrCode.FLASH_ENV_FULL, cur, endA, some SENTINEL)

/-
  The load / recovery path (flash_load_env).  The two words read from
  flash (the system section pointer and the detail end address stored in
  the active slot) are the inputs; the outcome says whether defaults are
  installed, and in the ready case which slot is active, the end address,
  and the byte count of the flash_read that fills the cache.
-/

/-- The outcome of flash_load_env. -/
inductive LoadResult where
  | defaults (newCur : Nat)
  | ready (cur endA readLen : Nat)
deriving DecidableEq

/-- Whether the load outcome installed the default set. -/
def LoadResult.installsDefaults : LoadResult → Bool
  | LoadResult.defaults _ => true
  | LoadResult.ready _ _ _ => false

/-- flash_load_env: read the system section pointer; the sentinel or a
    pointer greater than start + total installs defaults at the first
    slot; otherwise read the end-address word from the slot; a word
    greater than start + total installs defaults; otherwise load the
    detail bytes (uint32 length end - detail start) and become ready. -/
def flash_load_env_wl (start total eraseMin sysPtr endWord : Nat) : LoadResult :=
  if sysPtr = SENTINEL ∨ sysPtr > start + total then
    LoadResult.defaults (start + eraseMin)
  else if endWord > start + total then
    LoadResult.defaults sysPtr
  else
    LoadResult.ready sysPtr endWord
      (u32sub endWord (sysPtr + ENV_PARAM_PART_BYTE_SIZE))

/-
  flash_env_set_default: reset the end address to the detail part start
  (emptying the live region), create every default entry discarding the
  result codes, call flash_save_env discarding its result, and return
  FLASH_NO_ERR.  The result the save would produce touches only the
  flash device, so it is passed in as a parameter here; the function
  discards it exactly as the C code discards the call result.
-/

/-- flash_env_set_default, with the discarded flash_save_env result as a
    parameter. -/
def flash_env_set_default (defaults : List (List Char × List Char))
    (st : EnvSt) (saveResult : FlashErrCode) : FlashErrCode × EnvSt :=
  let st0 : EnvSt := { st with detail := [] }
  let st1 := defaults.foldl (fun s kv => (create_env kv.1 kv.2 s).2) st0
  let _ := saveResult
  (FlashErrCode.FLASH_NO_ERR, st1)

/-
  Well-formedness of the live detail region: a concatenation of records,
  each a non-empty NUL-free raw string followed by NUL padding up to the
  4-byte-aligned record length.  This is the shape write_env produces and
  the shape the on-media format prescribes.
-/

/-- Checker for the record structure of the detail region, with an explicit
    iteration bound; every block is at least one byte long, so d.length + 1
    iterations always reach the end.  This form evaluates by kernel
    reduction. -/
def wfDetailF : Nat → List Char → Bool
  | 0, _ => false
  | fuel + 1, d =>
    if d = [] then true
    else
      decide (1 ≤ cstrlen d) && decide (pad4 (cstrlen d + 1) ≤ d.length) &&
        ((d.take (pad4 (cstrlen d + 1))).drop (cstrlen d)).all (fun c => c = NUL) &&
        wfDetailF fuel (d.drop (pad4 (cstrlen d + 1)))

/-- Checker for the record structure of the detail region. -/
def wfDetail (d : List Char) : Bool := wfDetailF (d.length + 1) d

/-
  Sample states and parameters used by the witness theorems.
-/

/-- A state holding the two records a=x and b=yz. -/
def sampleSt : EnvSt :=
  { startAddr := 4, totalSize := 32, eraseMin := 4, curUsing := 8,
    detail := ['a','=','x',NUL,'b','=','y','z',NUL,NUL,NUL,NUL] }

/-- A state with an empty detail part and a small total size. -/
def emptySt : EnvSt :=
  { startAddr := 4096, totalSize := 4096, eraseMin := 4096, curUsing := 8192,
    detail := [] }

/-- A state whose used size already equals the total size. -/
def fullSt : EnvSt :=
  { startAddr := 4, totalSize := 16, eraseMin := 4, curUsing := 8,
    detail := ['a','=','b',NUL,'c','=','d',NUL] }

/-- Save parameters with one erase fault at the first slot and a detail
    size that is an exact erase-unit multiple. -/
def sampleSave : SaveParams :=
  { start := 4096, total := 65536, eraseMin := 4096, dsize := 4096,
    eraseFails := fun a => a == 8192, writeFails := fun _ => false }

/-- Save parameters with a fault-free device and an empty detail part. -/
def plainSave : SaveParams :=
  { start := 4096, total := 8192, eraseMin := 4096, dsize := 0,
    eraseFails := fun _ => false, writeFails := fun _ => false }

/-- Save parameters on which every erase attempt faults. -/
def exhaustSave : SaveParams :=
  { start := 4096, total := 8192, eraseMin := 4096, dsize := 0,
    eraseFails := fun _ => true, writeFails := fun _ => false }

/-- The relocation stride the specification prescribes: ceil(detailSize /
    erase_unit_size) * erase_unit_size.  Modelled from the words of the
    spec, for comparison with move_offset. -/
def specCeilStride (dsize eraseMin : Nat) : Nat :=
  ((dsize + eraseMin - 1) / eraseMin) * eraseMin

/-
  Basic facts about the C string primitives.
-/

theorem le_pad4 (n : Nat) : n ≤ pad4 n := by
  unfold pad4
  split
  · exact Nat.le_refl n
  · have h := Nat.div_add_mod n 4
    have h2 : n % 4 < 4 := Nat.mod_lt n (by omega)
    omega

theorem pad4_mod (n : Nat) : pad4 n % 4 = 0 := by
  unfold pad4
  split
  · assumption
  · simp [Nat.mul_mod]

theorem cstrlen_le_length (d : List Char) : cstrlen d ≤ d.length := by
  induction d with
  | nil => simp [cstrlen]
  | cons c cs ih =>
    simp only [cstrlen, List.length_cons]
    split <;> omega

theorem cstrlen_nul_cons (cs : List Char) : cstrlen (NUL :: cs) = 0 := by
  simp [cstrlen]

theorem cstrlen_append_of_mem {xs : List Char} (h : NUL ∈ xs) (ys : List Char) :
    cstrlen (xs ++ ys) = cstrlen xs := by
  induction xs with
  | nil => cases h
  | cons c cs ih =>
    simp only [List.cons_append, cstrlen, List.append_eq]
    split
    · rfl
    · rename_i hc
      have hm : NUL ∈ cs := by
        rcases List.mem_cons.mp h with h1 | h1
        · exact absurd h1.symm hc
        · exact h1
      rw [ih hm]

theorem cstr_append_of_mem {xs : List Char} (h : NUL ∈ xs) (ys : List Char) :
    cstr (xs ++ ys) = cstr xs := by
  induction xs with
  | nil => cases h
  | cons c cs ih =>
    simp only [List.cons_append, cstr, List.append_eq]
    split
    · rfl
    · rename_i hc
      have hm : NUL ∈ cs := by
        rcases List.mem_cons.mp h with h1 | h1
        · exact absurd h1.symm hc
        · exact h1
      rw [ih hm]

theorem cstr_eq_take (d : List Char) : cstr d = d.take (cstrlen d) := by
  induction d with
  | nil => rfl
  | cons c cs ih =>
    simp only [cstr, cstrlen]
    split
    · simp
    · simp [ih]

theorem cstrlen_lt_length_of_mem {d : List Char} (h : NUL ∈ d) :
    cstrlen d < d.length := by
  induction d with
  | nil => cases h
  | cons c cs ih =>
    simp only [cstrlen, List.length_cons]
    split
    · omega
    · rename_i hc
      have hm : NUL ∈ cs := by
        rcases List.mem_cons.mp h with h1 | h1
        · exact absurd h1.symm hc
        · exact h1
      have := ih hm
      omega

theorem getElem_cstrlen_of_mem {d : List Char} (h : NUL ∈ d) :
    d[cstrlen d]? = some NUL := by
  induction d with
  | nil => cases h
  | cons c cs ih =>
    simp only [cstrlen]
    split
    · rename_i hc
      subst hc
      simp
    · rename_i hc
      have hm : NUL ∈ cs := by
        rcases List.mem_cons.mp h with h1 | h1
        · exact absurd h1.symm hc
        · exact h1
      simpa using ih hm

theorem cstrlen_append_nul {xs : List Char} (h : NUL ∉ xs) (ys : List Char) :
    cstrlen (xs ++ NUL :: ys) = xs.length := by
  induction xs with
  | nil => simp [cstrlen]
  | cons c cs ih =>
    have hc : ¬ c = NUL := fun he => h (by simp [he])
    have hcs : NUL ∉ cs := fun hm => h (List.mem_cons_of_mem _ hm)
    simp only [List.cons_append, cstrlen, if_neg hc, List.length_cons,
      List.append_eq, ih hcs]

theorem cstr_append_nul {xs : List Char} (h : NUL ∉ xs) (ys : List Char) :
    cstr (xs ++ NUL :: ys) = xs := by
  induction xs with
  | nil => simp [cstr]
  | cons c cs ih =>
    have hc : ¬ c = NUL := fun he => h (by simp [he])
    have hcs : NUL ∉ cs := fun hm => h (List.mem_cons_of_mem _ hm)
    simp only [List.cons_append, cstr, if_neg hc, List.append_eq, ih hcs]

/-
  Facts about strstrIdx.
-/

theorem isPrefixOf_append_self (l t : List Char) :
    l.isPrefixOf (l ++ t) = true := by
  induction l with
  | nil => simp [List.isPrefixOf]
  | cons c cs ih => simp [List.isPrefixOf, ih]

theorem strstrIdx_nil (needle : List Char) :
    strstrIdx [] needle = if needle.isPrefixOf [] then some 0 else none := rfl

theorem strstrIdx_cons (c : Char) (t needle : List Char) :
    strstrIdx (c :: t) needle =
      if needle.isPrefixOf (c :: t) then some 0
      else (strstrIdx t needle).map (· + 1) := rfl

theorem strstrIdx_some_prefix {hay needle : List Char} {i : Nat}
    (h : strstrIdx hay needle = some i) :
    needle.isPrefixOf (hay.drop i) = true := by
  induction hay generalizing i with
  | nil =>
    rw [strstrIdx_nil] at h
    split at h
    · rename_i hp
      cases h
      simpa using hp
    · cases h
  | cons c t ih =>
    rw [strstrIdx_cons] at h
    split at h
    · rename_i hp
      cases h
      simpa using hp
    · rcases ho : strstrIdx t needle with _ | j
      · rw [ho] at h
        cases h
      · rw [ho] at h
        have hj : j + 1 = i := by simpa using h
        subst hj
        simpa using ih ho

theorem strstrIdx_some_le_length {hay needle : List Char} {i : Nat}
    (h : strstrIdx hay needle = some i) : i ≤ hay.length := by
  induction hay generalizing i with
  | nil =>
    rw [strstrIdx_nil] at h
    split at h
    · cases h
      simp
    · cases h
  | cons c t ih =>
    rw [strstrIdx_cons] at h
    split at h
    · cases h
      simp
    · rcases ho : strstrIdx t needle with _ | j
      · rw [ho] at h
        cases h
      · rw [ho] at h
        have hj : j + 1 = i := by simpa using h
        subst hj
        have := ih ho
        simp only [List.length_cons]
        omega

theorem strstrIdx_some_le {hay needle : List Char} {i : Nat}
    (h : strstrIdx hay needle = some i) :
    i + needle.length ≤ hay.length := by
  have hp := strstrIdx_some_prefix h
  have hpre := List.isPrefixOf_iff_prefix.mp hp
  have hle := hpre.length_le
  have hi := strstrIdx_some_le_length h
  rw [List.length_drop] at hle
  omega

theorem strstrIdx_of_prefix {hay needle : List Char}
    (h : needle.isPrefixOf hay = true) : strstrIdx hay needle = some 0 := by
  rcases hay with _ | ⟨c, t⟩
  · rw [strstrIdx_nil, if_pos h]
  · rw [strstrIdx_cons, if_pos h]

theorem strstrIdx_first_eq {k v : List Char} (h : '=' ∉ k) :
    strstrIdx (k ++ '=' :: v) ['='] = some k.length := by
  induction k with
  | nil =>
    apply strstrIdx_of_prefix
    simp [List.isPrefixOf]
  | cons c cs ih =>
    have hc : ¬ c = '=' := fun he => h (by simp [he])
    have hcs : '=' ∉ cs := fun hm => h (List.mem_cons_of_mem _ hm)
    have hnp : (['='] : List Char).isPrefixOf (c :: (cs ++ '=' :: v)) = false := by
      simp only [List.isPrefixOf, Bool.and_eq_false_iff]
      left
      simp only [beq_eq_false_iff_ne, ne_eq]
      exact fun he => absurd he.symm hc
    rw [List.cons_append, strstrIdx_cons, hnp]
    simp [ih hcs]

/-
  Facts about the find_env scan loop.
-/

theorem strstrIdx_nil_none {k : List Char} (h : k ≠ []) :
    strstrIdx [] k = none := by
  rw [strstrIdx_nil]
  rcases k with _ | ⟨c, cs⟩
  · exact absurd rfl h
  · simp [List.isPrefixOf]

theorem find_from_eq (key d : List Char) (o : Nat) :
    find_from key d o =
      if o < d.length then
        (if matchAt key d o then some o
         else find_from key d (o + cstrlen (d.drop o) + 1))
      else none := by
  rw [find_from.eq_def]
  by_cases h : o < d.length
  · rw [dif_pos h, if_pos h]
  · rw [dif_neg h, if_neg h]

theorem find_from_stop {key d : List Char} {o : Nat} (h : ¬ o < d.length) :
    find_from key d o = none := by
  rw [find_from_eq, if_neg h]

/-- With enough fuel the bounded scan computes the scan. -/
theorem find_from_fuel_eq (key d : List Char) :
    ∀ (fuel o : Nat), d.length ≤ o + fuel →
      find_from_fuel key d fuel o = find_from key d o := by
  intro fuel
  induction fuel with
  | zero =>
    intro o h
    rw [find_from_stop (by omega)]
    rfl
  | succ f ih =>
    intro o h
    rw [find_from_eq]
    show (if o < d.length then
        (if matchAt key d o then some o
         else find_from_fuel key d f (o + cstrlen (d.drop o) + 1))
      else none) = _
    by_cases ho : o < d.length
    · rw [if_pos ho, if_pos ho]
      by_cases hm : matchAt key d o
      · rw [if_pos hm, if_pos hm]
      · rw [if_neg hm, if_neg hm]
        exact ih _ (by omega)
    · rw [if_neg ho, if_neg ho]

theorem find_env_eq (key d : List Char) :
    find_env key d = if key = [] then none else find_from key d 0 := by
  unfold find_env
  by_cases hk : key = []
  · rw [if_pos hk, if_pos hk]
  · rw [if_neg hk, if_neg hk]
    exact find_from_fuel_eq key d (d.length + 1) 0 (by omega)

/-- After a mismatch at a NUL byte the scan just moves one byte forward. -/
theorem find_from_pad_step {k d : List Char} {o : Nat} (hk : k ≠ [])
    (ho : o < d.length) (hnul : d[o]? = some NUL) :
    find_from k d o = find_from k d (o + 1) := by
  have hdrop : d.drop o = NUL :: d.drop (o + 1) := by
    have hc := List.drop_eq_getElem_cons ho
    have hg : d[o] = NUL := by
      have := List.getElem?_eq_getElem ho
      rw [this] at hnul
      exact Option.some.inj hnul
    rw [hg] at hc
    exact hc
  have hm : matchAt k d o = false := by
    unfold matchAt
    rw [hdrop]
    rw [show cstr (NUL :: d.drop (o + 1)) = [] from by simp [cstr]]
    rw [strstrIdx_nil_none hk]
  rw [find_from_eq, if_pos ho, hm]
  simp only [Bool.false_eq_true, if_false, hdrop, cstrlen_nul_cons]

/-- The scan skips a run of NUL padding bytes. -/
theorem find_from_pad_walk {k d : List Char} (hk : k ≠ []) {a b : Nat}
    (hab : a ≤ b) (hb : b ≤ d.length)
    (hpad : ∀ j, a ≤ j → j < b → d[j]? = some NUL) :
    find_from k d a = find_from k d b := by
  generalize hn : b - a = n
  induction n generalizing a with
  | zero =>
    have : a = b := by omega
    rw [this]
  | succ m ih =>
    have hab2 : a < b := by omega
    have hstep := find_from_pad_step hk (by omega : a < d.length)
      (hpad a (Nat.le_refl a) hab2)
    rw [hstep]
    exact ih (by omega) (fun j hj1 hj2 => hpad j (by omega) hj2) (by omega)

/-- Scanning a concatenation beyond the first part is scanning the second
    part, with all reported offsets shifted. -/
theorem find_from_append_shift (k xs ys : List Char) (t : Nat) :
    find_from k (xs ++ ys) (xs.length + t) =
      (find_from k ys t).map (· + xs.length) := by
  generalize hn : ys.length - t = n
  induction n using Nat.strong_induction_on generalizing t with
  | _ n ih =>
    have hdrop : (xs ++ ys).drop (xs.length + t) = ys.drop t :=
      List.drop_append t
    have hm : matchAt k (xs ++ ys) (xs.length + t) = matchAt k ys t := by
      unfold matchAt
      rw [hdrop]
    rw [find_from_eq, find_from_eq k ys t]
    rw [List.length_append]
    by_cases ht : t < ys.length
    · rw [if_pos (by omega), if_pos ht, hm]
      by_cases hmt : matchAt k ys t
      · rw [hmt]
        simp [Nat.add_comm]
      · simp only [hmt, Bool.false_eq_true, if_false]
        rw [hdrop]
        have harr : xs.length + t + cstrlen (ys.drop t) + 1 =
            xs.length + (t + cstrlen (ys.drop t) + 1) := by omega
        rw [harr]
        subst hn
        exact ih (ys.length - (t + cstrlen (ys.drop t) + 1)) (by omega)
          (t + cstrlen (ys.drop t) + 1) rfl
    · rw [if_neg (by omega), if_neg ht]
      rfl

/-
  Facts about the well-formedness checker of the detail region.
-/

theorem mem_of_getElem_eq {l : List Char} (i : Nat) {a : Char}
    (h : l[i]? = some a) : a ∈ l :=
  List.mem_iff_getElem?.mpr ⟨i, h⟩

theorem wfDetailF_congr : ∀ {f1 : Nat} {f2 : Nat} (d : List Char),
    d.length < f1 → d.length < f2 → wfDetailF f1 d = wfDetailF f2 d := by
  intro f1
  induction f1 using Nat.strong_induction_on with
  | _ f1 ih =>
    intro f2 d h1 h2
    rcases f1 with _ | g1
    · omega
    rcases f2 with _ | g2
    · omega
    show (if d = [] then true else _) = (if d = [] then true else _)
    by_cases hd : d = []
    · rw [if_pos hd, if_pos hd]
    · rw [if_neg hd, if_neg hd]
      have hB : 1 ≤ pad4 (cstrlen d + 1) := le_trans (by omega) (le_pad4 _)
      have hlen : 0 < d.length := List.length_pos.mpr hd
      have hrec : wfDetailF g1 (d.drop (pad4 (cstrlen d + 1))) =
          wfDetailF g2 (d.drop (pad4 (cstrlen d + 1))) := by
        apply ih g1 (by omega)
        · rw [List.length_drop]
          omega
        · rw [List.length_drop]
          omega
      rw [hrec]

theorem wfDetail_unfold {d : List Char} (hne : d ≠ []) :
    wfDetail d =
      (decide (1 ≤ cstrlen d) && decide (pad4 (cstrlen d + 1) ≤ d.length) &&
        ((d.take (pad4 (cstrlen d + 1))).drop (cstrlen d)).all (fun c => c = NUL) &&
        wfDetail (d.drop (pad4 (cstrlen d + 1)))) := by
  have hB : 1 ≤ pad4 (cstrlen d + 1) := le_trans (by omega) (le_pad4 _)
  have hlen : 0 < d.length := List.length_pos.mpr hne
  show (if d = [] then true
    else decide (1 ≤ cstrlen d) && decide (pad4 (cstrlen d + 1) ≤ d.length) &&
      ((d.take (pad4 (cstrlen d + 1))).drop (cstrlen d)).all (fun c => c = NUL) &&
      wfDetailF d.length (d.drop (pad4 (cstrlen d + 1)))) = _
  rw [if_neg hne]
  have hrec : wfDetailF d.length (d.drop (pad4 (cstrlen d + 1))) =
      wfDetail (d.drop (pad4 (cstrlen d + 1))) := by
    apply wfDetailF_congr
    · rw [List.length_drop]
      omega
    · rw [List.length_drop]
      omega
  rw [hrec]

theorem wfDetail_cons_iff {d : List Char} (hne : d ≠ []) :
    wfDetail d = true ↔
      1 ≤ cstrlen d ∧ pad4 (cstrlen d + 1) ≤ d.length ∧
      (∀ j, cstrlen d ≤ j → j < pad4 (cstrlen d + 1) → d[j]? = some NUL) ∧
      wfDetail (d.drop (pad4 (cstrlen d + 1))) = true := by
  rw [wfDetail_unfold hne]
  simp only [Bool.and_eq_true, decide_eq_true_eq, List.all_eq_true]
  constructor
  · rintro ⟨⟨⟨h1, h2⟩, h3⟩, h4⟩
    refine ⟨h1, h2, ?_, h4⟩
    intro j hj1 hj2
    have hjl : j < d.length := lt_of_lt_of_le hj2 h2
    have hidx : ((d.take (pad4 (cstrlen d + 1))).drop (cstrlen d))[j - cstrlen d]? =
        d[j]? := by
      rw [List.getElem?_drop]
      rw [List.getElem?_take]
      rw [if_pos (by omega)]
      congr 1
      omega
    have hmem : d[j] ∈ (d.take (pad4 (cstrlen d + 1))).drop (cstrlen d) := by
      apply mem_of_getElem_eq (j - cstrlen d)
      rw [hidx]
      exact List.getElem?_eq_getElem hjl
    have hx := h3 _ hmem
    rw [List.getElem?_eq_getElem hjl, hx]
  · rintro ⟨h1, h2, h3, h4⟩
    refine ⟨⟨⟨h1, h2⟩, ?_⟩, h4⟩
    intro x hx
    rcases List.mem_iff_getElem?.mp hx with ⟨i, hi⟩
    have hix : ((d.take (pad4 (cstrlen d + 1))).drop (cstrlen d))[i]? =
        if cstrlen d + i < pad4 (cstrlen d + 1) then d[cstrlen d + i]? else none := by
      rw [List.getElem?_drop, List.getElem?_take]
    rw [hix] at hi
    split at hi
    · rename_i hlt
      have := h3 (cstrlen d + i) (by omega) hlt
      rw [this] at hi
      cases hi
      simp
    · cases hi

theorem wfDetail_nul_len_pos {d : List Char} (hw : wfDetail d = true)
    (hne : d ≠ []) : 1 ≤ cstrlen d :=
  ((wfDetail_cons_iff hne).mp hw).1

/-- In a well-formed detail region every position is followed by a NUL. -/
theorem wfDetail_mem_nul {d : List Char} (hw : wfDetail d = true) :
    ∀ o, o < d.length → NUL ∈ d.drop o := by
  generalize hn : d.length = n
  induction n using Nat.strong_induction_on generalizing d with
  | _ n ih =>
    intro o ho
    have hne : d ≠ [] := by
      intro he
      subst he
      simp at hn
      omega
    rcases (wfDetail_cons_iff hne).mp hw with ⟨h1, h2, h3, h4⟩
    set L := cstrlen d with hL
    set B := pad4 (L + 1) with hB
    have hLB : L + 1 ≤ B := le_pad4 _
    by_cases hoB : o < B
    · by_cases hoL : o ≤ L
      · have hnul : d[L]? = some NUL := h3 L (Nat.le_refl L) (by omega)
        apply mem_of_getElem_eq (L - o)
        rw [List.getElem?_drop]
        rw [show o + (L - o) = L from by omega]
        exact hnul
      · have hnul : d[o]? = some NUL := h3 o (by omega) hoB
        apply mem_of_getElem_eq 0
        rw [List.getElem?_drop]
        rw [show o + 0 = o from rfl]
        exact hnul
    · have hBpos : 1 ≤ B := by omega
      have hdd : (d.drop B).drop (o - B) = d.drop o := by
        rw [List.drop_drop]
        congr 1
        omega
      rw [← hdd]
      apply ih (d.drop B).length ?_ h4 rfl
      · rw [List.length_drop]
        omega
      · rw [List.length_drop]
        omega

theorem cstr_length (l : List Char) : (cstr l).length = cstrlen l := by
  rw [cstr_eq_take, List.length_take]
  exact min_eq_left (cstrlen_le_length l)

/-- A successful scan stops at a matching offset inside the region. -/
theorem find_from_some_match {k d : List Char} {o o' : Nat}
    (h : find_from k d o = some o') :
    matchAt k d o' = true ∧ o' < d.length := by
  generalize hn : d.length - o = n
  induction n using Nat.strong_induction_on generalizing o with
  | _ n ih =>
    rw [find_from_eq] at h
    split at h
    · rename_i ho
      split at h
      · rename_i hm
        cases h
        exact ⟨hm, ho⟩
      · exact ih (d.length - (o + cstrlen (d.drop o) + 1)) (by omega) h rfl
    · cases h

/-- Appending does not change a candidate test at an offset whose string
    already terminates inside the region. -/
theorem matchAt_append_stable {k d r : List Char} {o : Nat}
    (ho : o ≤ d.length) (hnul : NUL ∈ d.drop o) :
    matchAt k (d ++ r) o = matchAt k d o := by
  have hdrop : (d ++ r).drop o = d.drop o ++ r :=
    List.drop_append_of_le_length ho
  unfold matchAt
  rw [hdrop, cstr_append_of_mem hnul]
  rcases hs : strstrIdx (cstr (d.drop o)) k with _ | i
  · rfl
  · have hle := strstrIdx_some_le hs
    rw [cstr_length] at hle
    have hlt : i + k.length < (d.drop o).length :=
      lt_of_le_of_lt hle (cstrlen_lt_length_of_mem hnul)
    have hg : (d.drop o ++ r)[i + k.length]? = (d.drop o)[i + k.length]? := by
      rw [List.getElem?_append, if_pos hlt]
    simp only [hg]

/-- Appending does not change the advance step either. -/
theorem cstrlen_append_stable {d r : List Char} {o : Nat}
    (ho : o ≤ d.length) (hnul : NUL ∈ d.drop o) :
    cstrlen ((d ++ r).drop o) = cstrlen (d.drop o) := by
  rw [List.drop_append_of_le_length ho, cstrlen_append_of_mem hnul]

/-- Extending a region in which the scan finds nothing makes the scan find
    the first offset of the appended part, provided it matches there. -/
theorem find_from_extend {k d r : List Char}
    (hrec : 0 < r.length)
    (hnul : ∀ o, o < d.length → NUL ∈ d.drop o)
    (hmatch : matchAt k (d ++ r) d.length = true) :
    ∀ {o : Nat}, o ≤ d.length → find_from k d o = none →
      find_from k (d ++ r) o = some d.length := by
  intro o
  generalize hn : d.length - o = n
  induction n using Nat.strong_induction_on generalizing o with
  | _ n ih =>
    intro ho hnone
    by_cases he : o = d.length
    · subst he
      rw [find_from_eq, List.length_append, if_pos (by omega), hmatch]
      simp
    · have holt : o < d.length := by omega
      rw [find_from_eq, if_pos holt] at hnone
      have hnulo := hnul o holt
      split at hnone
      · cases hnone
      · rename_i hm
        have hm2 : matchAt k (d ++ r) o = false := by
          rw [matchAt_append_stable (le_of_lt holt) hnulo]
          exact Bool.not_eq_true _ ▸ hm
        have hcl : cstrlen (d.drop o) < (d.drop o).length :=
          cstrlen_lt_length_of_mem hnulo
        rw [List.length_drop] at hcl
        rw [find_from_eq, List.length_append, if_pos (by omega), hm2]
        simp only [Bool.false_eq_true, if_false]
        rw [cstrlen_append_stable (le_of_lt holt) hnulo]
        exact ih (d.length - (o + cstrlen (d.drop o) + 1)) (by omega)
          rfl (by omega) hnone

/-- Gluing a leading well-formed block onto a well-formed region. -/
theorem wfDetail_block_append {d e : List Char}
    (h1 : 1 ≤ cstrlen d) (h2 : pad4 (cstrlen d + 1) ≤ d.length)
    (h3 : ∀ j, cstrlen d ≤ j → j < pad4 (cstrlen d + 1) → d[j]? = some NUL)
    (he : wfDetail e = true) :
    wfDetail (d.take (pad4 (cstrlen d + 1)) ++ e) = true := by
  set L := cstrlen d with hL
  set B := pad4 (L + 1) with hB
  have hLB : L + 1 ≤ B := le_pad4 _
  have htlen : (d.take B).length = B := by
    rw [List.length_take]
    exact min_eq_left h2
  have hnultake : (d.take B)[L]? = some NUL := by
    rw [List.getElem?_take, if_pos (by omega)]
    exact h3 L (Nat.le_refl L) (by omega)
  have hmem : NUL ∈ d.take B := mem_of_getElem_eq L hnultake
  have hcs : cstrlen (d.take B ++ e) = L := by
    rw [cstrlen_append_of_mem hmem]
    have : cstrlen (d.take B ++ d.drop B) = cstrlen (d.take B) :=
      cstrlen_append_of_mem hmem _
    rw [List.take_append_drop] at this
    omega
  have hne2 : d.take B ++ e ≠ [] := by
    intro hx
    have := congrArg List.length hx
    rw [List.length_append, htlen] at this
    simp at this
    omega
  rw [wfDetail_cons_iff hne2, hcs]
  refine ⟨h1, ?_, ?_, ?_⟩
  · rw [List.length_append, htlen]
    omega
  · intro j hj1 hj2
    rw [← hB] at hj2
    rw [List.getElem?_append, if_pos (by omega : j < (d.take B).length)]
    rw [List.getElem?_take, if_pos (by omega)]
    exact h3 j hj1 hj2
  · rw [← hB]
    have hdrop2 : (d.take B ++ e).drop B = e := by
      have hx := List.drop_left (d.take B) e
      rw [htlen] at hx
      exact hx
    rw [hdrop2]
    exact he

/-- In a well-formed region a successful find lands on a record start, the
    deletion length is that record's padded length, and excising the record
    leaves a well-formed region. -/
theorem wf_find_block {k : List Char} (hk : k ≠ []) :
    ∀ {d : List Char}, wfDetail d = true →
      ∀ {o : Nat}, find_from k d 0 = some o →
        o + del_padded_len d o ≤ d.length ∧
        wfDetail (d.take o ++ d.drop (o + del_padded_len d o)) = true := by
  intro d
  generalize hn : d.length = n
  induction n using Nat.strong_induction_on generalizing d with
  | _ n ih =>
    intro hw o hfind
    have hne : d ≠ [] := by
      intro he
      subst he
      rw [find_from_stop (by simp)] at hfind
      cases hfind
    have hlen0 : 0 < d.length := List.length_pos.mpr hne
    rcases (wfDetail_cons_iff hne).mp hw with ⟨h1, h2, h3, h4⟩
    set L := cstrlen d with hL
    set B := pad4 (L + 1) with hB
    have hLB : L + 1 ≤ B := le_pad4 _
    rw [find_from_eq, if_pos hlen0] at hfind
    rw [List.drop_zero] at hfind
    by_cases hm : matchAt k d 0
    · rw [hm, if_pos rfl] at hfind
      cases hfind
      unfold del_padded_len
      rw [List.drop_zero, ← hL, ← hB]
      constructor
      · omega
      · simp only [List.take_zero, List.nil_append, Nat.zero_add]
        exact h4
    · rw [if_neg hm] at hfind
      rw [← hL] at hfind
      have hwalk : find_from k d (0 + L + 1) = find_from k d B := by
        apply find_from_pad_walk hk (by omega) (by omega)
        intro j hj1 hj2
        exact h3 j (by omega) hj2
      rw [hwalk] at hfind
      have htlen : (d.take B).length = B := by
        rw [List.length_take]
        exact min_eq_left h2
      have hsplit : d.take B ++ d.drop B = d := List.take_append_drop B d
      have hshift : find_from k d B = (find_from k (d.drop B) 0).map (· + B) := by
        have hx := find_from_append_shift k (d.take B) (d.drop B) 0
        rw [hsplit, htlen] at hx
        rw [show B + 0 = B from rfl] at hx
        exact hx
      rw [hshift] at hfind
      rcases ho2 : find_from k (d.drop B) 0 with _ | o'
      · rw [ho2] at hfind
        cases hfind
      · rw [ho2] at hfind
        have hoe : o' + B = o := by simpa using hfind
        have hrec := ih (d.drop B).length
          (by rw [List.length_drop]; omega) rfl h4 ho2
        have hdleq : del_padded_len d o = del_padded_len (d.drop B) o' := by
          unfold del_padded_len
          rw [← hoe]
          rw [show o' + B = B + o' from by omega]
          rw [← List.drop_drop]
        rw [List.length_drop] at hrec
        constructor
        · omega
        · set dl := del_padded_len (d.drop B) o' with hdl
          have hsplit2 : d.take o ++ d.drop (o + del_padded_len d o) =
              d.take B ++ ((d.drop B).take o' ++ (d.drop B).drop (o' + dl)) := by
            rw [hdleq, ← hoe]
            rw [show o' + B = B + o' from by omega]
            rw [List.take_add]
            rw [show B + o' + dl = B + (o' + dl) from by omega]
            rw [← List.drop_drop]
            rw [List.append_assoc]
          rw [hsplit2]
          have hglue := wfDetail_block_append h1 h2 h3 hrec.2
          rw [← hL, ← hB] at hglue
          exact hglue

theorem contains_eq_false_of_not_mem {k : List Char} (h : '=' ∉ k) :
    k.contains '=' = false := by
  simpa using h

/-- Below the uint16 wrap point, the padded length is the mathematical
    4-byte-aligned record length. -/
theorem take_append_ge {xs ys : List Char} {n : Nat} (h : xs.length ≤ n) :
    (xs ++ ys).take n = xs ++ ys.take (n - xs.length) := by
  nth_rewrite 1 [show n = xs.length + (n - xs.length) from by omega]
  rw [List.take_append]

theorem padded_len_of_small {k v : List Char}
    (hb : k.length + v.length + 2 ≤ 65532) :
    padded_len k v = pad4 (k.length + v.length + 2) := by
  have hr : (k.length + v.length + 2) % 2 ^ 16 = k.length + v.length + 2 :=
    Nat.mod_eq_of_lt (by omega)
  unfold padded_len pad4
  simp only [hr]
  split
  · rfl
  · rename_i hm
    exact Nat.mod_eq_of_lt (by omega)

/-- Below the wrap point the bytes written are the raw record followed by
    at least one NUL of padding. -/
theorem env_str_bytes_of_small {k v : List Char}
    (hb : k.length + v.length + 2 ≤ 65532) :
    env_str_bytes k v (padded_len k v) =
      (k ++ '=' :: v) ++
        List.replicate (padded_len k v - (k.length + v.length + 1)) NUL ∧
    1 ≤ padded_len k v - (k.length + v.length + 1) := by
  have hp := padded_len_of_small hb
  have hp2 : k.length + v.length + 2 ≤ padded_len k v := by
    rw [hp]
    exact le_pad4 _
  have hm : (k ++ '=' :: v).length = k.length + v.length + 1 := by
    simp only [List.length_append, List.length_cons]
    omega
  constructor
  · unfold env_str_bytes
    rw [show k ++ '=' :: v ++ List.replicate (padded_len k v) NUL =
        (k ++ '=' :: v) ++ List.replicate (padded_len k v) NUL from by
      simp]
    rw [take_append_ge (by omega)]
    rw [hm, List.take_replicate]
    rw [min_eq_left (by omega)]
  · omega

/-- The raw record text contains no NUL when key and value do not. -/
theorem raw_record_nul_not_mem {k v : List Char} (hknul : NUL ∉ k)
    (hvnul : NUL ∉ v) : NUL ∉ k ++ '=' :: v := by
  intro hmem
  rcases List.mem_append.mp hmem with h | h
  · exact hknul h
  · rcases List.mem_cons.mp h with h1 | h1
    · exact absurd h1 (by decide)
    · exact hvnul h1

/-- The appended record matches its own key at its first byte. -/
theorem matchAt_append_record {k v d1 : List Char} {q : Nat}
    (hknul : NUL ∉ k) (hvnul : NUL ∉ v) (hq : 1 ≤ q) :
    matchAt k (d1 ++ ((k ++ '=' :: v) ++ List.replicate q NUL)) d1.length = true := by
  set rcd := (k ++ '=' :: v) ++ List.replicate q NUL with hrcd
  have hdrop : (d1 ++ rcd).drop d1.length = rcd := List.drop_left d1 rcd
  have hrep : List.replicate q NUL = NUL :: List.replicate (q - 1) NUL := by
    rw [show q = (q - 1) + 1 from by omega, List.replicate_succ]
    simp
  have hcstr : cstr rcd = k ++ '=' :: v := by
    rw [hrcd, hrep]
    exact cstr_append_nul (raw_record_nul_not_mem hknul hvnul) _
  have hpre : k.isPrefixOf (k ++ '=' :: v) = true := isPrefixOf_append_self k _
  have hidx : rcd[0 + k.length]? = some '=' := by
    rw [hrcd]
    rw [Nat.zero_add]
    have hlt : k.length < (k ++ '=' :: v).length := by
      simp [List.length_append]
    rw [List.getElem?_append, if_pos hlt]
    rw [List.getElem?_append_right (Nat.le_refl _)]
    simp
  unfold matchAt
  simp only [hdrop, hcstr, strstrIdx_of_prefix hpre, hidx]
  simp

/-- After appending a fresh record to a well-formed region in which the key
    does not occur, find_env locates exactly the appended record. -/
theorem find_env_append_record {k v d1 : List Char} {q : Nat} (hk : k ≠ [])
    (hknul : NUL ∉ k) (hvnul : NUL ∉ v) (hq : 1 ≤ q)
    (hw : wfDetail d1 = true) (hnone : find_env k d1 = none) :
    find_env k (d1 ++ ((k ++ '=' :: v) ++ List.replicate q NUL)) =
      some d1.length := by
  rw [find_env_eq, if_neg hk]
  rw [find_env_eq, if_neg hk] at hnone
  apply find_from_extend
  · simp [List.length_append]
  · exact wfDetail_mem_nul hw
  · exact matchAt_append_record hknul hvnul hq
  · exact Nat.zero_le _
  · exact hnone

/-- Reading the value of the appended record returns exactly the value. -/
theorem get_value_append_record {k v : List Char} (d1 : List Char) {q : Nat}
    (hkeq : '=' ∉ k) (hknul : NUL ∉ k) (hvnul : NUL ∉ v) (hq : 1 ≤ q) :
    cstr ((d1 ++ ((k ++ '=' :: v) ++ List.replicate q NUL)).drop d1.length) =
      k ++ '=' :: v ∧
    strstrIdx (k ++ '=' :: v) ['='] = some k.length ∧
    (k ++ '=' :: v).drop (k.length + 1) = v := by
  set rcd := (k ++ '=' :: v) ++ List.replicate q NUL with hrcd
  have hdrop : (d1 ++ rcd).drop d1.length = rcd := List.drop_left d1 rcd
  have hrep : List.replicate q NUL = NUL :: List.replicate (q - 1) NUL := by
    rw [show q = (q - 1) + 1 from by omega, List.replicate_succ]
    simp
  refine ⟨?_, strstrIdx_first_eq hkeq, ?_⟩
  · rw [hdrop, hrcd, hrep]
    exact cstr_append_nul (raw_record_nul_not_mem hknul hvnul) _
  · have hda : (k ++ '=' :: v).drop (k.length + 1) = List.drop 1 ('=' :: v) :=
      List.drop_append 1
    rw [hda, List.drop_one, List.tail_cons]

/-- A successful create appends the record and a following get returns the
    value exactly. -/
theorem create_success_get {k v : List Char} {st1 st' : EnvSt}
    (hk : k ≠ []) (hkeq : '=' ∉ k) (hknul : NUL ∉ k) (hvnul : NUL ∉ v)
    (hb : k.length + v.length + 2 ≤ 65532)
    (hw : wfDetail st1.detail = true)
    (hcr : create_env k v st1 = (FlashErrCode.FLASH_NO_ERR, st')) :
    flash_get_env k st' = some v := by
  unfold create_env at hcr
  rw [if_neg hk, if_neg (by rw [contains_eq_false_of_not_mem hkeq]; simp)] at hcr
  rcases hfind : find_env k st1.detail with _ | o
  · simp only [hfind] at hcr
    unfold write_env at hcr
    split at hcr
    · cases hcr
    · injection hcr with hcode hst
      subst hst
      rcases env_str_bytes_of_small hb with ⟨hbytes, hq⟩
      unfold flash_get_env
      simp only [hbytes]
      rw [find_env_append_record hk hknul hvnul hq hw hfind]
      rcases get_value_append_record st1.detail hkeq hknul hvnul hq with
        ⟨hc, hs, hd⟩
      simp only [hc, hs, hd]
  · simp only [hfind] at hcr
    cases hcr

/-- A successful set with a non-empty value ends in a state where get
    returns exactly that value. -/
theorem set_success_get {k v : List Char} {st st' : EnvSt}
    (hk : k ≠ []) (hkeq : '=' ∉ k) (hknul : NUL ∉ k) (hvnul : NUL ∉ v)
    (hv : v ≠ []) (hb : k.length + v.length + 2 ≤ 65532)
    (hw : wfDetail st.detail = true)
    (hset : flash_set_env k v st = (FlashErrCode.FLASH_NO_ERR, st')) :
    flash_get_env k st' = some v := by
  unfold flash_set_env at hset
  rw [if_neg hv] at hset
  rcases hfind : find_env k st.detail with _ | o
  · rw [hfind] at hset
    simp only [if_pos rfl] at hset
    exact create_success_get hk hkeq hknul hvnul hb hw hset
  · rw [hfind] at hset
    have hdel : flash_del_env k st =
        (FlashErrCode.FLASH_NO_ERR,
          { st with detail := st.detail.take o ++
              st.detail.drop (o + del_padded_len st.detail o) }) := by
      unfold flash_del_env
      rw [if_neg hk, if_neg (by rw [contains_eq_false_of_not_mem hkeq]; simp)]
      rw [hfind]
    rw [hdel] at hset
    simp only [if_pos rfl] at hset
    have hfrom : find_from k st.detail 0 = some o := by
      rw [find_env_eq, if_neg hk] at hfind
      exact hfind
    have hw1 := (wf_find_block hk hw hfrom).2
    exact create_success_get hk hkeq hknul hvnul hb hw1 hset

/-
  Claim theorems.
-/

/-- C1 is false as stated: on the single record ab=1 the lookup find_env
    reports a match for the key b at offset 0, although the record bytes at
    that offset do not equal the key followed by the equal sign — strstr
    matches the key as a substring of the record. -/
theorem C1_find_env_counterexample :
    find_env ['b'] ['a','b','=','1', NUL, NUL, NUL, NUL] = some 0 ∧
    (['b','='] : List Char).isPrefixOf
      (List.drop 0 ['a','b','=','1', NUL, NUL, NUL, NUL]) = false := by
  decide

/-- C1 (amended): find_env rejects the empty key with NotFound, and
    whenever it reports a match at offset o, o lies inside the scanned
    region and the key occurs as a substring of the record string at o —
    at the first strstr occurrence — immediately followed by the equal
    sign; the matched record need not have the key as its exact key
    part. -/
theorem C1_find_env_substring_semantics (key d : List Char) :
    find_env [] d = none ∧
    (∀ o, find_env key d = some o →
      o < d.length ∧
      ∃ i, strstrIdx (cstr (d.drop o)) key = some i ∧
        (d.drop o)[i + key.length]? = some '=') := by
  constructor
  · rw [find_env_eq, if_pos rfl]
  · intro o h
    by_cases hk : key = []
    · rw [find_env_eq, if_pos hk] at h
      cases h
    · rw [find_env_eq, if_neg hk] at h
      have hm := find_from_some_match h
      refine ⟨hm.2, ?_⟩
      have hm1 := hm.1
      unfold matchAt at hm1
      rcases hs : strstrIdx (cstr (d.drop o)) key with _ | i
      · rw [hs] at hm1
        cases hm1
      · rw [hs] at hm1
        refine ⟨i, rfl, ?_⟩
        simpa using hm1

/-- Witness for C1: applying the amended semantics at the successful
    lookup of key a in the record a=x. -/
theorem C1_find_env_substring_semantics_witness :
    0 < (['a','=','x',NUL] : List Char).length ∧
    ∃ i, strstrIdx (cstr ((['a','=','x',NUL] : List Char).drop 0)) ['a'] = some i ∧
      ((['a','=','x',NUL] : List Char).drop 0)[i + (['a'] : List Char).length]? =
        some '=' :=
  (C1_find_env_substring_semantics ['a'] ['a','=','x',NUL]).2 0 (by decide)

/-- C2: when the lookup locates a record at offset o in a well-formed
    cache, flash_del_env removes exactly align4(strlen(record)+1) bytes at
    o: every earlier byte is unchanged, every later live byte moves
    backward by that amount, the region shrinks by it, and the detail end
    address decreases by it; deleting an absent key returns NameError and
    leaves the state unchanged. -/
theorem C2_flash_del_env_compacts (k : List Char) (st : EnvSt)
    (hkeq : '=' ∉ k) (hw : wfDetail st.detail = true) :
    (find_env k st.detail = none →
       flash_del_env k st = (FlashErrCode.FLASH_ENV_NAME_ERR, st)) ∧
    (∀ o, find_env k st.detail = some o →
       flash_del_env k st = (FlashErrCode.FLASH_NO_ERR,
         { st with detail := st.detail.take o ++
             st.detail.drop (o + del_padded_len st.detail o) }) ∧
       o + del_padded_len st.detail o ≤ st.detail.length ∧
       (st.detail.take o ++
           st.detail.drop (o + del_padded_len st.detail o)).length =
         st.detail.length - del_padded_len st.detail o ∧
       get_env_detail_end_addr
         ({ st with detail := st.detail.take o ++
             st.detail.drop (o + del_padded_len st.detail o) }) =
         get_env_detail_end_addr st - del_padded_len st.detail o ∧
       (∀ j, j < o →
         (st.detail.take o ++
             st.detail.drop (o + del_padded_len st.detail o))[j]? =
           st.detail[j]?) ∧
       (∀ j, o ≤ j →
         (st.detail.take o ++
             st.detail.drop (o + del_padded_len st.detail o))[j]? =
           st.detail[j + del_padded_len st.detail o]?)) := by
  have hcontains : (k.contains '=') = false := contains_eq_false_of_not_mem hkeq
  constructor
  · intro hnone
    unfold flash_del_env
    by_cases hk : k = []
    · rw [if_pos hk]
    · rw [if_neg hk, if_neg (by rw [hcontains]; simp)]
      rw [hnone]
  · intro o hfind
    have hk : k ≠ [] := by
      intro he
      subst he
      rw [find_env_eq, if_pos rfl] at hfind
      cases hfind
    have hfrom : find_from k st.detail 0 = some o := by
      rw [find_env_eq, if_neg hk] at hfind
      exact hfind
    have hblock := wf_find_block hk hw hfrom
    have hod : o + del_padded_len st.detail o ≤ st.detail.length := hblock.1
    have holen : o ≤ st.detail.length := by omega
    have htake : (st.detail.take o).length = o := by
      rw [List.length_take]
      exact min_eq_left holen
    have hlen : (st.detail.take o ++
        st.detail.drop (o + del_padded_len st.detail o)).length =
        st.detail.length - del_padded_len st.detail o := by
      rw [List.length_append, htake, List.length_drop]
      omega
    refine ⟨?_, hod, hlen, ?_, ?_, ?_⟩
    · unfold flash_del_env
      rw [if_neg hk, if_neg (by rw [hcontains]; simp)]
      rw [hfind]
    · unfold get_env_detail_end_addr
      rw [hlen]
      simp only []
      omega
    · intro j hj
      rw [List.getElem?_append, if_pos (by omega : j < (st.detail.take o).length)]
      rw [List.getElem?_take, if_pos hj]
    · intro j hj
      rw [List.getElem?_append_right (by omega : (st.detail.take o).length ≤ j)]
      rw [List.getElem?_drop, htake]
      congr 1
      omega

/-- Witness for C2: deleting the key a from the two-record sample state
    succeeds, and deleting the absent key c is a NameError that leaves the
    state unchanged. -/
theorem C2_flash_del_env_compacts_witness :
    flash_del_env ['a'] sampleSt = (FlashErrCode.FLASH_NO_ERR,
      { sampleSt with detail := sampleSt.detail.take 0 ++
          sampleSt.detail.drop (0 + del_padded_len sampleSt.detail 0) }) ∧
    flash_del_env ['c'] sampleSt = (FlashErrCode.FLASH_ENV_NAME_ERR, sampleSt) := by
  constructor
  · exact ((C2_flash_del_env_compacts ['a'] sampleSt (by decide) (by decide)).2
      0 (by decide)).1
  · exact (C2_flash_del_env_compacts ['c'] sampleSt (by decide) (by decide)).1
      (by decide)

/-- C3 is false as stated: when detailSize is an exact multiple of the
    erase unit (here both 4096), a failing first attempt advances the slot
    from 8192 to 16384, a stride of 8192 = (4096/4096 + 1)*4096, not the
    ceil formula value 4096; the claim includes exact multiples
    explicitly. -/
theorem C3_stride_counterexample :
    move_offset sampleSave = 8192 ∧
    specCeilStride 4096 4096 = 4096 ∧
    specCeilStride 0 4096 = 0 ∧
    move_offset plainSave = 4096 ∧
    saveLoop sampleSave 2 FlashErrCode.FLASH_NO_ERR 8192 12284 [] =
      SaveOut.done FlashErrCode.FLASH_NO_ERR 16384 20476
        [(8192, 4100), (16384, 4100)] ∧
    (16384 : Nat) ≠ 8192 + specCeilStride 4096 4096 := by
  decide

/-- C3 (amended): every failed erase or write attempt advances the slot
    address and the cached end address by exactly (detailSize /
    erase_unit_size + 1) * erase_unit_size — equal to the ceil formula only
    when erase_unit_size does not divide detailSize — and when save later
    succeeds at an address different from the initial one, the system
    section is written with exactly the final slot address. -/
theorem C3_stride_and_pointer (p : SaveParams) (fuel cur endA : Nat)
    (r : FlashErrCode) :
    (p.eraseFails cur = true → cur + p.dsize < p.start + p.total →
      saveLoop p (fuel + 1) r cur endA [] =
        saveLoop p fuel FlashErrCode.FLASH_ERASE_ERR
          (cur + (p.dsize / p.eraseMin + 1) * p.eraseMin)
          (endA + (p.dsize / p.eraseMin + 1) * p.eraseMin)
          [(cur, data_erase_len p)]) ∧
    (p.eraseFails cur = false → p.writeFails cur = true →
      cur + p.dsize < p.start + p.total →
      saveLoop p (fuel + 1) r cur endA [] =
        saveLoop p fuel FlashErrCode.FLASH_WRITE_ERR
          (cur + (p.dsize / p.eraseMin + 1) * p.eraseMin)
          (endA + (p.dsize / p.eraseMin + 1) * p.eraseMin)
          [(cur, data_erase_len p)]) ∧
    (∀ cur1 endA1 sys, flash_save_env_wl p fuel cur endA =
        some (FlashErrCode.FLASH_NO_ERR, cur1, endA1, sys) →
      cur1 ≠ cur → sys = some cur1) := by
  refine ⟨?_, ?_, ?_⟩
  · intro he hg
    show (if cur + p.dsize < p.start + p.total then _ else _) = _
    rw [if_pos hg]
    simp only [he, if_pos rfl, List.nil_append]
    rfl
  · intro he hw hg
    show (if cur + p.dsize < p.start + p.total then _ else _) = _
    rw [if_pos hg]
    simp only [he, hw, List.nil_append]
    rfl
  · intro cur1 endA1 sys hsave hne
    unfold flash_save_env_wl at hsave
    cases hdone : saveLoop p fuel FlashErrCode.FLASH_NO_ERR cur endA [] with
    | done r2 cur2 endA2 calls2 =>
      simp only [hdone] at hsave
      split at hsave
      · injection hsave with hs
        injection hs with h1 hs
        injection hs with h2 hs
        injection hs with h3 h4
        subst h2
        subst h4
        rw [if_pos hne]
      · injection hsave with hs
        injection hs with h1 hs
        exact absurd h1.symm (by decide)
    | fuelOut =>
      simp only [hdone] at hsave
      cases hsave

/-- Witness for C3: the single erase fault of the sample parameters
    advances the slot and end address by 8192, and the successful save run
    reports the system pointer written with the final address 16384. -/
theorem C3_stride_and_pointer_witness :
    saveLoop sampleSave 2 FlashErrCode.FLASH_NO_ERR 8192 12284 [] =
      saveLoop sampleSave 1 FlashErrCode.FLASH_ERASE_ERR
        (8192 + (sampleSave.dsize / sampleSave.eraseMin + 1) * sampleSave.eraseMin)
        (12284 + (sampleSave.dsize / sampleSave.eraseMin + 1) * sampleSave.eraseMin)
        [(8192, data_erase_len sampleSave)] ∧
    (some 16384 : Option Nat) = some 16384 := by
  constructor
  · exact (C3_stride_and_pointer sampleSave 1 8192 12284
      FlashErrCode.FLASH_NO_ERR).1 (by decide) (by decide)
  · exact (C3_stride_and_pointer sampleSave 3 8192 12284
      FlashErrCode.FLASH_NO_ERR).2.2 16384 20476 (some 16384)
      (by decide) (by decide)

/-- C4 is false as stated: the pointer 4 lies far below start_address =
    4096, hence outside [start, start+total), yet load accepts it and
    reaches Ready; the boundary pointer start+total = 12288 is accepted
    too.  The code only rejects pointers strictly greater than
    start+total. -/
theorem C4_load_range_counterexample :
    (4 : Nat) < 4096 ∧
    (flash_load_env_wl 4096 8192 4096 4 4104).installsDefaults = false ∧
    (flash_load_env_wl 4096 8192 4096 12288 12288).installsDefaults = false := by
  decide

/-- C4 (amended): load installs defaults exactly when the system pointer is
    the sentinel or exceeds start + total, or otherwise when the end word
    read from the slot exceeds start + total; pointers below start and the
    boundary value start + total itself are accepted.  In the accepted case
    load becomes ready with the pointer as slot address, the end word as
    end address, and the uint32 difference as the byte count read into the
    cache. -/
theorem C4_load_defaults_iff (start total eraseMin sysPtr endWord : Nat) :
    ((flash_load_env_wl start total eraseMin sysPtr endWord).installsDefaults =
        true ↔
      (sysPtr = SENTINEL ∨ sysPtr > start + total ∨ endWord > start + total)) ∧
    (¬ (sysPtr = SENTINEL ∨ sysPtr > start + total) →
      ¬ endWord > start + total →
      flash_load_env_wl start total eraseMin sysPtr endWord =
        LoadResult.ready sysPtr endWord
          (u32sub endWord (sysPtr + ENV_PARAM_PART_BYTE_SIZE))) := by
  constructor
  · unfold flash_load_env_wl
    by_cases h1 : sysPtr = SENTINEL ∨ sysPtr > start + total
    · rw [if_pos h1]
      simp only [LoadResult.installsDefaults]
      constructor
      · intro _
        rcases h1 with h | h
        · exact Or.inl h
        · exact Or.inr (Or.inl h)
      · intro _
        trivial
    · rw [if_neg h1]
      by_cases h2 : endWord > start + total
      · rw [if_pos h2]
        simp only [LoadResult.installsDefaults]
        constructor
        · intro _
          exact Or.inr (Or.inr h2)
        · intro _
          trivial
      · rw [if_neg h2]
        simp only [LoadResult.installsDefaults]
        constructor
        · intro h
          cases h
        · intro h
          rcases h with h | h | h
          · exact absurd (Or.inl h) h1
          · exact absurd (Or.inr h) h1
          · exact absurd h h2
  · intro h1 h2
    unfold flash_load_env_wl
    rw [if_neg h1, if_neg h2]

/-- Witness for C4: an in-range pointer and end word make load ready with
    the read length computed from the end word. -/
theorem C4_load_defaults_iff_witness :
    flash_load_env_wl 4096 8192 4096 8192 8196 =
      LoadResult.ready 8192 8196 (u32sub 8196 (8192 + ENV_PARAM_PART_BYTE_SIZE)) :=
  (C4_load_defaults_iff 4096 8192 4096 8192 8196).2 (by decide) (by decide)

/-- C5 is false as stated: a 65534-byte key makes the uint16 record length
    wrap to 0, so write_env returns success and appends nothing although
    align4(len(key)+len(value)+2) + detailSize = 65536 is far beyond the
    total size 4096. -/
theorem C5_write_env_counterexample :
    pad4 ((List.replicate 65534 'a').length + ([] : List Char).length + 2) +
        get_env_detail_size emptySt ≥ emptySt.totalSize ∧
    (write_env (List.replicate 65534 'a') [] emptySt).1 =
      FlashErrCode.FLASH_NO_ERR := by
  have hlen : (List.replicate 65534 'a').length = 65534 :=
    List.length_replicate 65534 'a'
  have hpad : padded_len (List.replicate 65534 'a') [] = 0 := by
    unfold padded_len
    rw [hlen]
    norm_num
  constructor
  · rw [hlen]
    show pad4 65536 + 0 ≥ 4096
    unfold pad4
    norm_num
  · unfold write_env
    rw [hpad]
    rw [if_neg (by show ¬ 0 + get_env_detail_size emptySt ≥ emptySt.totalSize; decide)]

/-- C5 (amended): with the record length computed in 16-bit arithmetic —
    equal to align4(len key + len value + 2) whenever len key + len value +
    2 ≤ 65532 — write_env fails with EnvFull exactly when that length plus
    detailSize reaches total_size, leaving the state unchanged; otherwise
    it appends the bytes key, equal sign, value and NUL padding at the
    detail end and advances the end address by exactly the padded
    length. -/
theorem C5_write_env_spec (k v : List Char) (st : EnvSt) :
    (padded_len k v + get_env_detail_size st ≥ st.totalSize →
       write_env k v st = (FlashErrCode.FLASH_ENV_FULL, st)) ∧
    (padded_len k v + get_env_detail_size st < st.totalSize →
       write_env k v st = (FlashErrCode.FLASH_NO_ERR,
         { st with detail := st.detail ++ env_str_bytes k v (padded_len k v) }) ∧
       get_env_detail_end_addr
         ({ st with detail := st.detail ++ env_str_bytes k v (padded_len k v) }) =
         get_env_detail_end_addr st + padded_len k v) ∧
    (k.length + v.length + 2 ≤ 65532 →
       padded_len k v = pad4 (k.length + v.length + 2) ∧
       env_str_bytes k v (padded_len k v) =
         (k ++ '=' :: v) ++
           List.replicate (padded_len k v - (k.length + v.length + 1)) NUL) := by
  refine ⟨?_, ?_, ?_⟩
  · intro h
    unfold write_env
    rw [if_pos h]
  · intro h
    constructor
    · unfold write_env
      rw [if_neg (by omega)]
    · unfold get_env_detail_end_addr
      simp only [List.length_append]
      have hblen : (env_str_bytes k v (padded_len k v)).length = padded_len k v := by
        unfold env_str_bytes
        rw [List.length_take]
        apply min_eq_left
        simp only [List.length_append, List.length_cons, List.length_replicate]
        omega
      rw [hblen]
      omega
  · intro h
    exact ⟨padded_len_of_small h, (env_str_bytes_of_small h).1⟩

/-- Witness for C5: appending k=v to the sample state succeeds, advances
    the end address by the padded length 4, and the record bytes are the
    key, the equal sign, the value and one NUL. -/
theorem C5_write_env_spec_witness :
    write_env ['k'] ['v'] sampleSt = (FlashErrCode.FLASH_NO_ERR,
      { sampleSt with detail := sampleSt.detail ++
          env_str_bytes ['k'] ['v'] (padded_len ['k'] ['v']) }) ∧
    get_env_detail_end_addr
      ({ sampleSt with detail := sampleSt.detail ++
          env_str_bytes ['k'] ['v'] (padded_len ['k'] ['v']) }) =
      get_env_detail_end_addr sampleSt + padded_len ['k'] ['v'] :=
  (C5_write_env_spec ['k'] ['v'] sampleSt).2.1 (by decide)

/-- C6 is false as stated for values of length 0: setting the empty value
    takes the delete path, so although set succeeds on the present key a,
    the following get returns NotFound, not the empty value. -/
theorem C6_set_get_counterexample :
    (flash_set_env ['a'] [] sampleSt).1 = FlashErrCode.FLASH_NO_ERR ∧
    flash_get_env ['a'] (flash_set_env ['a'] [] sampleSt).2 ≠ some [] := by
  decide

/-- C6 (amended): for every key that is non-empty, free of the equal sign
    and of NUL, and every non-empty NUL-free value, with the combined
    length inside the 16-bit range of write_env, a successful
    flash_set_env on a well-formed cache is followed by flash_get_env
    returning exactly the value — for value lengths 1, 3, 4, 5 and any
    other non-zero length; a value of length 0 instead deletes the key. -/
theorem C6_set_then_get_roundtrip {k v : List Char} {st st' : EnvSt}
    (hk : k ≠ []) (hkeq : '=' ∉ k) (hknul : NUL ∉ k) (hvnul : NUL ∉ v)
    (hv : v ≠ []) (hb : k.length + v.length + 2 ≤ 65532)
    (hw : wfDetail st.detail = true)
    (hset : flash_set_env k v st = (FlashErrCode.FLASH_NO_ERR, st')) :
    flash_get_env k st' = some v :=
  set_success_get hk hkeq hknul hvnul hv hb hw hset

/-- Witness for C6: overwriting the present key b of the sample state with
    the two-byte value qr succeeds and get returns exactly qr. -/
theorem C6_set_then_get_roundtrip_witness :
    flash_get_env ['b'] (flash_set_env ['b'] ['q','r'] sampleSt).2 =
      some ['q','r'] := by
  have hset : flash_set_env ['b'] ['q','r'] sampleSt =
      (FlashErrCode.FLASH_NO_ERR, (flash_set_env ['b'] ['q','r'] sampleSt).2) := by
    decide
  exact C6_set_then_get_roundtrip (by decide) (by decide) (by decide) (by decide)
    (by decide) (by decide) (by decide) hset

/-- C7: when the save loop stops with no remaining slot satisfying
    slot + detailSize < start + total, flash_save_env returns the full
    error and writes the sentinel to the system section, and any
    subsequent load that reads the sentinel pointer installs defaults at
    the first slot. -/
theorem C7_save_exhaustion_sentinel (p : SaveParams) (fuel cur0 endA0 : Nat)
    (r : FlashErrCode) (cur endA : Nat) (calls : List (Nat × Nat))
    (hdone : saveLoop p fuel FlashErrCode.FLASH_NO_ERR cur0 endA0 [] =
      SaveOut.done r cur endA calls)
    (hfull : ¬ cur + p.dsize < p.start + p.total) :
    flash_save_env_wl p fuel cur0 endA0 =
      some (FlashErrCode.FLASH_ENV_FULL, cur, endA, some SENTINEL) ∧
    ∀ start total eraseMin endWord,
      flash_load_env_wl start total eraseMin SENTINEL endWord =
        LoadResult.defaults (start + eraseMin) := by
  constructor
  · unfold flash_save_env_wl
    simp only [hdone]
    rw [if_neg hfull]
  · intro s t e w
    unfold flash_load_env_wl
    rw [if_pos (Or.inl rfl)]

/-- Witness for C7: with every erase attempt faulting, the store is
    exhausted after one relocation, save reports EnvFull with the sentinel
    written, and the sentinel makes the next load install defaults. -/
theorem C7_save_exhaustion_sentinel_witness :
    flash_save_env_wl exhaustSave 2 8192 8196 =
      some (FlashErrCode.FLASH_ENV_FULL, 12288, 12292, some SENTINEL) ∧
    flash_load_env_wl 4096 8192 4096 SENTINEL 0 = LoadResult.defaults 8192 := by
  have h := C7_save_exhaustion_sentinel exhaustSave 2 8192 8196
    FlashErrCode.FLASH_ERASE_ERR 12288 12292 [(8192, 4)] (by decide) (by decide)
  exact ⟨h.1, h.2 4096 8192 4096 0⟩

/-- C8 is false as stated: with erase_unit_size 4096 and an empty detail
    part, the data-section erase is issued with length
    ENV_PARAM_PART_BYTE_SIZE + 0 = 4 and the system-section erase with
    length 4; neither length is a multiple of 4096. -/
theorem C8_erase_length_counterexample :
    saveLoop plainSave 1 FlashErrCode.FLASH_NO_ERR 8192 8196 [] =
      SaveOut.done FlashErrCode.FLASH_NO_ERR 8192 8196 [(8192, 4)] ∧
    (save_cur_using_data_addr 4096 8192 false false).2.1 = (4096, 4) ∧
    ¬ (4096 ∣ 4) := by
  decide

/-- C8 (amended): relocation preserves the slot-address residue modulo the
    erase unit (an erase-unit-aligned slot stays aligned), but the erase
    lengths passed to the device are 4 for the system section and
    ENV_PARAM_PART_BYTE_SIZE + detailSize for the data section — multiples
    of the 4-byte word when detailSize is, not of erase_unit_size. -/
theorem C8_erase_alignment (p : SaveParams) (cur : Nat) (b1 b2 : Bool)
    (start v : Nat) :
    (p.eraseMin ∣ cur → p.eraseMin ∣ (cur + move_offset p)) ∧
    (save_cur_using_data_addr start v b1 b2).2.1 = (start, 4) ∧
    (4 ∣ p.dsize → 4 ∣ data_erase_len p) ∧
    data_erase_len p = ENV_PARAM_PART_BYTE_SIZE + p.dsize := by
  refine ⟨?_, ?_, ?_, rfl⟩
  · intro h
    refine Nat.dvd_add h ⟨p.dsize / p.eraseMin + 1, ?_⟩
    unfold move_offset
    ring
  · unfold save_cur_using_data_addr
    cases b1 <;> cases b2 <;> rfl
  · intro h
    unfold data_erase_len ENV_PARAM_PART_BYTE_SIZE
    omega

/-- Witness for C8: the aligned slot 8192 stays aligned after the stride
    advance, the system erase call is (4096, 4), and the data erase length
    of the fault-free sample is a multiple of 4. -/
theorem C8_erase_alignment_witness :
    (4096 ∣ (8192 + move_offset plainSave)) ∧
    (save_cur_using_data_addr 4096 8192 false false).2.1 = (4096, 4) ∧
    (4 ∣ data_erase_len plainSave) := by
  have h := C8_erase_alignment plainSave 8192 false false 4096 8192
  exact ⟨h.1 (by decide), h.2.1, h.2.2.1 (by decide)⟩

/-- C9 is false as stated: in a reachable state whose used size equals the
    total size exactly, appending k=v still passes the capacity check (4 +
    8 < 16) and leaves detail_end − start = 20 > 16 = total_size. -/
theorem C9_used_size_counterexample :
    flash_get_env_used_size fullSt ≤ fullSt.totalSize ∧
    (write_env ['k'] ['v'] fullSt).1 = FlashErrCode.FLASH_NO_ERR ∧
    flash_get_env_used_size (write_env ['k'] ['v'] fullSt).2 >
      (write_env ['k'] ['v'] fullSt).2.totalSize := by
  decide

/-- C9 (amended): the capacity check performed before every append bounds
    the detail part, not the used size: every successful append leaves
    detailSize < total_size, every rejected append leaves the state
    unchanged, and delete never increases the detail end address; the
    bound detail_end − start ≤ total_size claimed by the spec is not
    maintained. -/
theorem C9_capacity_invariant (k v : List Char) (st st' : EnvSt) :
    (write_env k v st = (FlashErrCode.FLASH_NO_ERR, st') →
       get_env_detail_size st' < st'.totalSize) ∧
    (write_env k v st = (FlashErrCode.FLASH_ENV_FULL, st') → st' = st) ∧
    (∀ st2 r, flash_del_env k st = (r, st2) →
       get_env_detail_end_addr st2 ≤ get_env_detail_end_addr st) := by
  refine ⟨?_, ?_, ?_⟩
  · intro h
    unfold write_env at h
    split at h
    · cases h
    · rename_i hlt
      injection h with h1 h2
      subst h2
      unfold get_env_detail_size at hlt ⊢
      simp only [List.length_append]
      have hblen : (env_str_bytes k v (padded_len k v)).length = padded_len k v := by
        unfold env_str_bytes
        rw [List.length_take]
        apply min_eq_left
        simp only [List.length_append, List.length_cons, List.length_replicate]
        omega
      rw [hblen]
      omega
  · intro h
    unfold write_env at h
    split at h
    · injection h with h1 h2
      exact h2.symm
    · cases h
  · intro st2 r h
    unfold flash_del_env at h
    split at h
    · injection h with h1 h2
      subst h2
      exact Nat.le_refl _
    · split at h
      · injection h with h1 h2
        subst h2
        exact Nat.le_refl _
      · rcases hfind : find_env k st.detail with _ | o
        · simp only [hfind] at h
          injection h with h1 h2
          subst h2
          exact Nat.le_refl _
        · simp only [hfind] at h
          injection h with h1 h2
          subst h2
          unfold get_env_detail_end_addr
          simp only [List.length_append, List.length_take, List.length_drop]
          have h1 := Nat.min_le_left o st.detail.length
          omega

/-- Witness for C9: the successful append to the full sample state keeps
    detailSize below total_size, and deleting the key a does not increase
    the end address. -/
theorem C9_capacity_invariant_witness :
    get_env_detail_size (write_env ['k'] ['v'] fullSt).2 <
      (write_env ['k'] ['v'] fullSt).2.totalSize ∧
    get_env_detail_end_addr (flash_del_env ['a'] fullSt).2 ≤
      get_env_detail_end_addr fullSt := by
  constructor
  · exact (C9_capacity_invariant ['k'] ['v'] fullSt
      (write_env ['k'] ['v'] fullSt).2).1 (by decide)
  · exact (C9_capacity_invariant ['a'] [] fullSt fullSt).2.2
      (flash_del_env ['a'] fullSt).2 (flash_del_env ['a'] fullSt).1 (by decide)

/-- C10: flash_env_set_default returns FLASH_NO_ERR for every default set,
    initial state, and save outcome: the result codes of the create_env
    calls are discarded inside the fold and the flash_save_env result is
    discarded as well, so the caller is told the defaults were installed
    and persisted even when a default entry is rejected or the save
    fails. -/
theorem C10_set_default_always_no_err
    (defaults : List (List Char × List Char)) (st : EnvSt)
    (saveResult : FlashErrCode) :
    flash_env_set_default defaults st saveResult =
      (FlashErrCode.FLASH_NO_ERR,
        defaults.foldl (fun s kv => (create_env kv.1 kv.2 s).2)
          { st with detail := [] }) := rfl

end EasyFlash
